import Mathlib

set_option maxRecDepth 100000

/-!
# Verification of the rusty-merkle-tree library

A shallow embedding of `src/lib.rs`: a SHA-256-based Merkle tree with
domain-separated leaf/internal hashing, odd-node promotion, incremental
append, inclusion-proof generation and verification.

Byte strings are modelled as `List Nat` (each entry a byte value `< 256`
wherever the source produces one); a digest is the 32-byte output of the
SHA-256 model below. Rust's `unreachable!`/panicking paths are modelled
with `Option` (`none` = panic), so unreachability claims become
`isSome`/`isOk` facts.
-/

namespace SHA256

/-- Truncation to a 32-bit word. -/
def mod32 (x : Nat) : Nat := x % 4294967296

/-- 32-bit right rotation by `n` (for `0 < n < 32`). -/
def rotr (n x : Nat) : Nat := mod32 ((x >>> n) ||| (x <<< (32 - n)))

/-- Big-endian byte decomposition, `n` bytes. -/
def toBytesBE : Nat → Nat → List Nat
  | 0, _ => []
  | n + 1, x => toBytesBE n (x / 256) ++ [x % 256]

/-- SHA-256 padding: append `0x80`, zero bytes to 56 mod 64, then the
64-bit big-endian bit length. -/
def pad (msg : List Nat) : List Nat :=
  let len := msg.length
  let zeros := (64 - (len + 9) % 64) % 64
  msg ++ [128] ++ List.replicate zeros 0 ++ toBytesBE 8 (len * 8)

/-- Split bytes into 64-byte blocks, carrying the current partial block in
reverse (structural recursion, so that the kernel can evaluate hashes). -/
def splitBlocks : List Nat → List Nat → List (List Nat)
  | cur, [] => if cur = [] then [] else [cur.reverse]
  | cur, b :: rest =>
      if cur.length = 63 then (b :: cur).reverse :: splitBlocks [] rest
      else splitBlocks (b :: cur) rest

/-- Split a (padded) message into 64-byte blocks. -/
def toBlocks (l : List Nat) : List (List Nat) := splitBlocks [] l

/-- 16 big-endian 32-bit words from a 64-byte block. -/
def wordsOfBlock : List Nat → List Nat
  | b0 :: b1 :: b2 :: b3 :: rest =>
      (b0 * 16777216 + b1 * 65536 + b2 * 256 + b3) :: wordsOfBlock rest
  | _ => []

def smallSigma0 (x : Nat) : Nat := (rotr 7 x) ^^^ (rotr 18 x) ^^^ (x >>> 3)

def smallSigma1 (x : Nat) : Nat := (rotr 17 x) ^^^ (rotr 19 x) ^^^ (x >>> 10)

def bigSigma0 (x : Nat) : Nat := (rotr 2 x) ^^^ (rotr 13 x) ^^^ (rotr 22 x)

def bigSigma1 (x : Nat) : Nat := (rotr 6 x) ^^^ (rotr 11 x) ^^^ (rotr 25 x)

def ch (x y z : Nat) : Nat := (x &&& y) ^^^ ((x ^^^ 4294967295) &&& z)

def maj (x y z : Nat) : Nat := (x &&& y) ^^^ (x &&& z) ^^^ (y &&& z)

/-- Extend the 16-word schedule by `n` more words. -/
def extendSchedule : Nat → List Nat → List Nat
  | 0, w => w
  | n + 1, w =>
      let i := w.length
      extendSchedule n (w ++ [mod32 (smallSigma1 (w.getD (i - 2) 0) + w.getD (i - 7) 0
        + smallSigma0 (w.getD (i - 15) 0) + w.getD (i - 16) 0)])

/-- The 64 SHA-256 round constants (decimal). -/
def k : List Nat :=
  [1116352408, 1899447441, 3049323471, 3921009573, 961987163, 1508970993,
   2453635748, 2870763221, 3624381080, 310598401, 607225278, 1426881987,
   1925078388, 2162078206, 2614888103, 3248222580, 3835390401, 4022224774,
   264347078, 604807628, 770255983, 1249150122, 1555081692, 1996064986,
   2554220882, 2821834349, 2952996808, 3210313671, 3336571891, 3584528711,
   113926993, 338241895, 666307205, 773529912, 1294757372, 1396182291,
   1695183700, 1986661051, 2177026350, 2456956037, 2730485921, 2820302411,
   3259730800, 3345764771, 3516065817, 3600352804, 4094571909, 275423344,
   430227734, 506948616, 659060556, 883997877, 958139571, 1322822218,
   1537002063, 1747873779, 1955562222, 2024104815, 2227730452, 2361852424,
   2428436474, 2756734187, 3204031479, 3329325298]

/-- The initial hash state (decimal). -/
def h0 : List Nat :=
  [1779033703, 3144134277, 1013904242, 2773480762,
   1359893119, 2600822924, 528734635, 1541459225]

/-- One compression round; `kw` is the round constant plus schedule word. -/
def round (st : List Nat) (kw : Nat) : List Nat :=
  match st with
  | [a, b, c, d, e, f, g, h] =>
      let t1 := mod32 (h + bigSigma1 e + ch e f g + kw)
      let t2 := mod32 (bigSigma0 a + maj a b c)
      [mod32 (t1 + t2), a, b, c, mod32 (d + t1), e, f, g]
  | other => other

/-- Compress one 64-byte block into the running state. -/
def compressBlock (h : List Nat) (block : List Nat) : List Nat :=
  let w := extendSchedule 48 (wordsOfBlock block)
  let kw := List.zipWith (fun a b => a + b) k w
  let st := kw.foldl round h
  List.zipWith (fun a b => mod32 (a + b)) h st

/-- SHA-256 of a byte string, as a 32-byte list. -/
def hash (msg : List Nat) : List Nat :=
  (((toBlocks (pad msg)).foldl compressBlock h0).map (toBytesBE 4)).flatten

end SHA256

/-! ## The library's hash functions (`hash_bytes`, `hash_leaf`, `hash_internal`) -/

/-- Rust `MerkleTree::hash_bytes`: plain SHA-256 of the input bytes. -/
def hash_bytes (data : List Nat) : List Nat := SHA256.hash data

/-- Rust `MerkleTree::hash_leaf`: SHA-256 of `0x00 || data` (leaf domain separation). -/
def hash_leaf (data : List Nat) : List Nat := SHA256.hash (0 :: data)

/-- Rust `MerkleTree::hash_internal`: SHA-256 of `0x01 || left || right`. -/
def hash_internal (left right : List Nat) : List Nat := SHA256.hash (1 :: (left ++ right))

/-! ## Data model (`Side`, `MerkleTree`, `MerkleProof`) -/

/-- Rust `enum Side { Left, Right }`. -/
inductive Side where
  | Left : Side
  | Right : Side
deriving DecidableEq, Repr

/-- Rust `struct MerkleTree { root: [u8; 32], leaves: Vec<[u8; 32]> }`. -/
structure MerkleTree where
  root : List Nat
  leaves : List (List Nat)
deriving DecidableEq, Repr

/-- Rust `struct MerkleProof { pairs: Vec<([u8; 32], Side)> }`. -/
structure MerkleProof where
  pairs : List (List Nat × Side)
deriving DecidableEq, Repr

/-! ## Tree construction and root computation -/

/-- Rust `MerkleTree::calculate_next_level_of_tree`: `chunks(2)` of the level, a
full pair `(a, b)` becomes `hash_internal(a, b)`, a trailing single element
is promoted unchanged. -/
def calculate_next_level_of_tree : List (List Nat) → List (List Nat)
  | [] => []
  | [x] => [x]
  | a :: b :: rest => hash_internal a b :: calculate_next_level_of_tree rest

theorem calculate_next_level_length :
    ∀ l : List (List Nat), (calculate_next_level_of_tree l).length = (l.length + 1) / 2
  | [] => rfl
  | [_] => by simp [calculate_next_level_of_tree]
  | _ :: _ :: rest => by
      simp [calculate_next_level_of_tree, calculate_next_level_length rest]
      omega

/-- Rust `MerkleTree::calculate_merkle_root`: reduce level by level until one
digest remains. The Rust `unreachable!` panic on an empty level is modelled
as `none`. -/
def calculate_merkle_root (leaves : List (List Nat)) : Option (List Nat) :=
  match leaves with
  | [] => none
  | [single] => some single
  | a :: b :: rest => calculate_merkle_root (calculate_next_level_of_tree (a :: b :: rest))
termination_by leaves.length
decreasing_by simp [calculate_next_level_length]; omega

/-- Rust `MerkleTree::new`: reject an empty input, hash each element into a leaf
in order, compute the root. The (unreachable) `none` from the root
computation is surfaced as a distinct error so that unreachability is
provable rather than assumed. -/
def MerkleTree.new (array : List (List Nat)) : Except String MerkleTree :=
  if array = [] then .error "You can\x27t create an empty Merkle Tree"
  else
    let leaves := array.map hash_leaf
    match calculate_merkle_root leaves with
    | some root => .ok { root := root, leaves := leaves }
    | none => .error "panic: Empty leaves in calculate_merkle_root"

/-- Rust `MerkleTree::leaves_count`. -/
def MerkleTree.leaves_count (t : MerkleTree) : Nat := t.leaves.length

/-- Rust `MerkleTree::leaf_at`: Rust indexes `self.leaves[idx]`, panicking when
out of range; the panic is modelled as `none`. -/
def MerkleTree.leaf_at (t : MerkleTree) (idx : Nat) : Option (List Nat) := t.leaves[idx]?

/-- Rust `MerkleTree::add_leaf`: push the hashed element and recompute the root
(the root computation's panic modelled as `none`, as above). -/
def MerkleTree.add_leaf (t : MerkleTree) (element : List Nat) : Option MerkleTree :=
  let new_hash := hash_leaf element
  let leaves := t.leaves ++ [new_hash]
  (calculate_merkle_root leaves).map fun root => { root := root, leaves := leaves }

/-! ## Proof generation -/

/-- Rust `Iterator::position` over the leaf list: index of the first element
satisfying the predicate. -/
def position (p : List Nat → Bool) : List (List Nat) → Option Nat
  | [] => none
  | a :: rest => if p a then some 0 else (position p rest).map (· + 1)

/-- Rust `MerkleTree::formulate_proof_recursive`. The Rust pushes this level's
sibling (when one exists) and recurses on the next level with `index / 2`;
here the pushed-then-recursed accumulator is the returned list. Rust's
in-bounds slice accesses are rendered with `getD` (all call sites keep
`index` in bounds). -/
def formulate_proof_recursive (current_level : List (List Nat)) (index : Nat) :
    List (List Nat × Side) :=
  if _h : current_level.length ≤ 1 then []
  else
    (if index % 2 = 0 then
      if index + 1 < current_level.length then
        [(current_level.getD (index + 1) [], Side.Right)]
      else []
    else [(current_level.getD (index - 1) [], Side.Left)])
    ++ formulate_proof_recursive (calculate_next_level_of_tree current_level) (index / 2)
termination_by current_level.length
decreasing_by simp [calculate_next_level_length]; omega

/-- Rust `MerkleTree::formulate_proof_of_inclusion`: hash the target, find the
first leaf with that digest, walk the levels. -/
def MerkleTree.formulate_proof_of_inclusion (t : MerkleTree) (data : List Nat) :
    Option MerkleProof :=
  let leaf_hash := hash_leaf data
  (position (fun h => h = leaf_hash) t.leaves).map fun index =>
    { pairs := formulate_proof_recursive t.leaves index }

/-! ## Verification -/

/-- One step of `MerkleProof::verify`'s loop: combine the running digest
with the sibling on the recorded side. -/
def verify_step (current_hash : List Nat) (pair : List Nat × Side) : List Nat :=
  match pair.2 with
  | Side.Left => hash_internal pair.1 current_hash
  | Side.Right => hash_internal current_hash pair.1

/-- Rust `MerkleProof::verify`: fold the pairs from `hash_leaf leaf` and compare
with the claimed root. -/
def MerkleProof.verify (proof : MerkleProof) (root : List Nat) (leaf : List Nat) : Bool :=
  (proof.pairs.foldl verify_step (hash_leaf leaf)) = root

/-! ## Hex display (`root_hex`) -/

/-- One lowercase hex digit. -/
def hexDigit (n : Nat) : Char := if n < 10 then Char.ofNat (48 + n) else Char.ofNat (87 + n)

/-- Rust `format!("{:02x}", b)` for a byte. -/
def byteHex (b : Nat) : List Char := [hexDigit (b / 16), hexDigit (b % 16)]

/-- Hex encoding of a byte list (used by `root_hex` and the tests'
expectations). -/
def bytesHex (bs : List Nat) : String := String.mk (bs.map byteHex).flatten

/-- Rust `MerkleTree::root_hex`. -/
def MerkleTree.root_hex (t : MerkleTree) : String := bytesHex t.root

/-! ## Reachable trees

A tree reachable through the public interface: built by `new` from some
input, then mutated only by `add_leaf`. -/

inductive Reachable : MerkleTree → Prop
  | base (E : List (List Nat)) (t : MerkleTree) : MerkleTree.new E = .ok t → Reachable t
  | step (t t' : MerkleTree) (x : List Nat) :
      Reachable t → t.add_leaf x = some t' → Reachable t'

/-! ## Basic lemmas about the level reduction -/

theorem calculate_next_level_nil : calculate_next_level_of_tree [] = [] := rfl

theorem calculate_next_level_single (x : List Nat) :
    calculate_next_level_of_tree [x] = [x] := rfl

theorem calculate_next_level_cons₂ (a b : List Nat) (rest : List (List Nat)) :
    calculate_next_level_of_tree (a :: b :: rest)
      = hash_internal a b :: calculate_next_level_of_tree rest := rfl

/-- Pointwise description of one reduction level: entry `j` of the next
level pairs entries `2j` and `2j + 1` of the current one, or promotes the
trailing entry `2j` when no `2j + 1` exists (out-of-range reads on both
sides default to `[]`). -/
theorem calculate_next_level_getD :
    ∀ (L : List (List Nat)) (j : Nat),
      (calculate_next_level_of_tree L).getD j []
        = if 2 * j + 1 < L.length then
            hash_internal (L.getD (2 * j) []) (L.getD (2 * j + 1) [])
          else L.getD (2 * j) []
  | [], j => by simp [calculate_next_level_of_tree]
  | [x], j => by
      cases j with
      | zero => simp [calculate_next_level_of_tree]
      | succ j =>
          simp only [calculate_next_level_of_tree, List.length_singleton]
          rw [if_neg (by omega), show 2 * (j + 1) = 2 * j + 1 + 1 from by ring]
          simp [List.getD]
  | a :: b :: rest, j => by
      cases j with
      | zero =>
          simp [calculate_next_level_of_tree, List.getD]
      | succ j =>
          have ih := calculate_next_level_getD rest j
          have e1 : (a :: b :: rest).getD (2 * (j + 1)) [] = rest.getD (2 * j) [] := by
            rw [show 2 * (j + 1) = 2 * j + 1 + 1 from by ring,
              List.getD_cons_succ, List.getD_cons_succ]
          have e2 : (a :: b :: rest).getD (2 * (j + 1) + 1) [] = rest.getD (2 * j + 1) [] := by
            rw [show 2 * (j + 1) + 1 = 2 * j + 1 + 1 + 1 from by ring,
              List.getD_cons_succ, List.getD_cons_succ]
          have e3 : (calculate_next_level_of_tree (a :: b :: rest)).getD (j + 1) []
              = (calculate_next_level_of_tree rest).getD j [] := by
            rw [calculate_next_level_cons₂, List.getD_cons_succ]
          rw [e3, ih, e1, e2]
          by_cases hc : 2 * j + 1 < rest.length
          · rw [if_pos hc, if_pos (by simp; omega)]
          · rw [if_neg hc, if_neg (by simp; omega)]

theorem calculate_merkle_root_nil : calculate_merkle_root [] = none := by
  rw [calculate_merkle_root]

theorem calculate_merkle_root_single (x : List Nat) :
    calculate_merkle_root [x] = some x := by
  rw [calculate_merkle_root]

theorem calculate_merkle_root_cons₂ (a b : List Nat) (rest : List (List Nat)) :
    calculate_merkle_root (a :: b :: rest)
      = calculate_merkle_root (calculate_next_level_of_tree (a :: b :: rest)) := by
  rw [calculate_merkle_root]

/-- The root computation succeeds on every non-empty level: the
`unreachable!` branch is never reached from a non-empty input. -/
theorem calculate_merkle_root_isSome :
    ∀ L : List (List Nat), L ≠ [] → (calculate_merkle_root L).isSome = true
  | [], h => absurd rfl h
  | [x], _ => by simp [calculate_merkle_root_single]
  | a :: b :: rest, _ => by
      rw [calculate_merkle_root_cons₂]
      apply calculate_merkle_root_isSome
      intro hnil
      have hlen := calculate_next_level_length (a :: b :: rest)
      rw [hnil] at hlen
      simp at hlen
      omega
termination_by L => L.length
decreasing_by simp [calculate_next_level_length]; omega

/-! ## Lemmas about `position` -/

theorem position_eq_none {p : List Nat → Bool} :
    ∀ l : List (List Nat), position p l = none ↔ ∀ x ∈ l, p x = false
  | [] => by simp [position]
  | a :: rest => by
      by_cases ha : p a
      · simp [position, ha]
      · simp [position, ha, position_eq_none rest]

theorem position_eq_some {p : List Nat → Bool} :
    ∀ (l : List (List Nat)) (i : Nat), position p l = some i →
      i < l.length ∧ p (l.getD i []) = true ∧ ∀ j, j < i → p (l.getD j []) = false
  | [], i, h => by simp [position] at h
  | a :: rest, i, h => by
      by_cases ha : p a
      · simp [position, ha] at h
        subst h
        simp [List.getD, ha]
      · simp [position, ha] at h
        obtain ⟨i', hi', rfl⟩ := h
        obtain ⟨hlen, hp, hmin⟩ := position_eq_some rest i' hi'
        refine ⟨by simpa using Nat.succ_lt_succ hlen, by simpa using hp, ?_⟩
        intro j hj
        cases j with
        | zero => simpa using ha
        | succ j => simpa using hmin j (by omega)

/-! ## Unfolding lemmas for proof generation -/

theorem formulate_proof_recursive_short (L : List (List Nat)) (i : Nat)
    (h : L.length ≤ 1) : formulate_proof_recursive L i = [] := by
  rw [formulate_proof_recursive]
  simp [h]

theorem formulate_proof_recursive_cons₂ (a b : List Nat) (rest : List (List Nat)) (i : Nat) :
    formulate_proof_recursive (a :: b :: rest) i
      = (if i % 2 = 0 then
          if i + 1 < (a :: b :: rest).length then
            [((a :: b :: rest).getD (i + 1) [], Side.Right)]
          else []
        else [((a :: b :: rest).getD (i - 1) [], Side.Left)])
        ++ formulate_proof_recursive (calculate_next_level_of_tree (a :: b :: rest)) (i / 2) := by
  rw [formulate_proof_recursive, dif_neg (show ¬((a :: b :: rest).length ≤ 1) from by simp)]

/-- Folding the recorded siblings over the digest at index `i` of a level
rebuilds exactly that level's root. This is the heart of the
prove/verify round trip, and it needs no property of the hash function:
the verifier replays the very combinations the builder performed. -/
theorem fold_proof_eq_root :
    ∀ (L : List (List Nat)) (i : Nat), i < L.length →
      calculate_merkle_root L
        = some (List.foldl verify_step (L.getD i []) (formulate_proof_recursive L i))
  | [], i, hi => by simp at hi
  | [x], i, hi => by
      have h0 : i = 0 := by simpa using hi
      subst h0
      rw [formulate_proof_recursive_short _ _ (by simp)]
      simp [calculate_merkle_root_single, List.getD]
  | a :: b :: rest, i, hi => by
      rw [calculate_merkle_root_cons₂, formulate_proof_recursive_cons₂, List.foldl_append]
      have hstep : List.foldl verify_step ((a :: b :: rest).getD i [])
          (if i % 2 = 0 then
            if i + 1 < (a :: b :: rest).length then
              [((a :: b :: rest).getD (i + 1) [], Side.Right)]
            else []
          else [((a :: b :: rest).getD (i - 1) [], Side.Left)])
          = (calculate_next_level_of_tree (a :: b :: rest)).getD (i / 2) [] := by
        rw [calculate_next_level_getD]
        simp only [List.length_cons] at hi ⊢
        by_cases hpar : i % 2 = 0
        · by_cases hnext : i + 1 < rest.length + 1 + 1
          · rw [if_pos hpar, if_pos hnext, if_pos (by omega),
              show 2 * (i / 2) = i from by omega]
            simp [verify_step]
          · rw [if_pos hpar, if_neg hnext, if_neg (by omega),
              show 2 * (i / 2) = i from by omega]
            simp
        · rw [if_neg hpar, if_pos (by omega), show 2 * (i / 2) + 1 = i from by omega,
            show 2 * (i / 2) = i - 1 from by omega]
          simp [verify_step]
      rw [hstep]
      exact fold_proof_eq_root (calculate_next_level_of_tree (a :: b :: rest)) (i / 2)
        (by rw [calculate_next_level_length]; simp at hi ⊢; omega)
termination_by L => L.length
decreasing_by simp [calculate_next_level_length]; omega

/-! ## Lemmas about the public constructors -/

/-- A successful construction records the input's leaf hashes in order and
caches the recomputed root. -/
theorem new_ok_inv (E : List (List Nat)) (t : MerkleTree)
    (h : MerkleTree.new E = .ok t) :
    E ≠ [] ∧ t.leaves = E.map hash_leaf ∧ calculate_merkle_root t.leaves = some t.root := by
  by_cases hE : E = []
  · subst hE
    simp [MerkleTree.new] at h
  · refine ⟨hE, ?_⟩
    rw [MerkleTree.new, if_neg hE] at h
    cases hr : calculate_merkle_root (E.map hash_leaf) with
    | none => simp [hr] at h
    | some r =>
        simp only [hr] at h
        simp only [Except.ok.injEq] at h
        subst h
        simpa using hr

/-- Construction succeeds on every non-empty input. -/
theorem new_of_ne_nil (E : List (List Nat)) (hE : E ≠ []) :
    ∃ t, MerkleTree.new E = .ok t := by
  have hmap : E.map hash_leaf ≠ [] := by simpa using hE
  have hs := calculate_merkle_root_isSome _ hmap
  cases hr : calculate_merkle_root (E.map hash_leaf) with
  | none => rw [hr] at hs; simp at hs
  | some r =>
      refine ⟨⟨r, E.map hash_leaf⟩, ?_⟩
      simp [MerkleTree.new, hE, hr]

/-- Appending always succeeds (the extended leaf list is never empty) and
yields the extended leaves together with their recomputed root. -/
theorem add_leaf_inv (t : MerkleTree) (x : List Nat) :
    ∃ t', t.add_leaf x = some t'
      ∧ t'.leaves = t.leaves ++ [hash_leaf x]
      ∧ calculate_merkle_root t'.leaves = some t'.root := by
  have hne : t.leaves ++ [hash_leaf x] ≠ [] := by simp
  have hs := calculate_merkle_root_isSome _ hne
  cases hr : calculate_merkle_root (t.leaves ++ [hash_leaf x]) with
  | none => rw [hr] at hs; simp at hs
  | some r =>
      refine ⟨⟨r, t.leaves ++ [hash_leaf x]⟩, ?_, rfl, by simpa using hr⟩
      simp [MerkleTree.add_leaf, hr]

/-- The cached-root/non-empty-leaves invariant holds for every tree that
the public interface can produce. -/
theorem reachable_inv (t : MerkleTree) (h : Reachable t) :
    t.leaves ≠ [] ∧ calculate_merkle_root t.leaves = some t.root := by
  induction h with
  | base E t hnew =>
      obtain ⟨hE, hl, hr⟩ := new_ok_inv E t hnew
      refine ⟨?_, hr⟩
      rw [hl]
      simpa using hE
  | step t t' x ht hadd ih =>
      obtain ⟨t'', hsome, hl, hr⟩ := add_leaf_inv t x
      rw [hadd] at hsome
      cases hsome
      constructor
      · rw [hl]; simp
      · exact hr

/-! ## Claims -/

/-- C1: for every ordered input `E` and every element `x` occurring in
`E`, construction succeeds, proof generation for `x` succeeds on the
built tree, and the generated proof verifies against that tree's root
and `x`. -/
theorem C1_prove_verify_roundtrip (E : List (List Nat)) (x : List Nat) (hx : x ∈ E) :
    ∃ t p, MerkleTree.new E = .ok t
      ∧ t.formulate_proof_of_inclusion x = some p
      ∧ p.verify t.root x = true := by
  have hE : E ≠ [] := by rintro rfl; simp at hx
  obtain ⟨t, hnew⟩ := new_of_ne_nil E hE
  obtain ⟨-, hleaves, hroot⟩ := new_ok_inv E t hnew
  have hmem : hash_leaf x ∈ t.leaves := by
    rw [hleaves]; exact List.mem_map_of_mem _ hx
  cases hpos : position (fun h => h = hash_leaf x) t.leaves with
  | none =>
      exfalso
      have := (position_eq_none _).mp hpos (hash_leaf x) hmem
      simp at this
  | some i =>
      obtain ⟨hi, hpi, -⟩ := position_eq_some _ _ hpos
      have hget : t.leaves.getD i [] = hash_leaf x := by simpa using hpi
      have hfold := fold_proof_eq_root t.leaves i hi
      rw [hget, hroot] at hfold
      have hfold' : t.root
          = List.foldl verify_step (hash_leaf x) (formulate_proof_recursive t.leaves i) :=
        Option.some_inj.mp hfold
      refine ⟨t, ⟨formulate_proof_recursive t.leaves i⟩, hnew, ?_, ?_⟩
      · simp [MerkleTree.formulate_proof_of_inclusion, hpos]
      · simp [MerkleProof.verify, hfold']

/-- Witness for C1 at `E = [[0], [1]]`, `x = [0]`. -/
theorem C1_witness :
    ([0] : List Nat) ∈ [[0], [1]]
      ∧ ∃ t p, MerkleTree.new [[0], [1]] = .ok t
        ∧ t.formulate_proof_of_inclusion [0] = some p
        ∧ p.verify t.root [0] = true :=
  ⟨by decide, C1_prove_verify_roundtrip [[0], [1]] [0] (by decide)⟩

/-- C2: a singleton level is returned as the root with no hashing (hence
a single-leaf tree's root is its sole leaf digest); a longer level is
reduced to the level of half the length rounded up whose entry `j` is
`hash_internal` of entries `2j` and `2j + 1`, a trailing unpaired entry
of an odd-length level being promoted unchanged, and the reduction
repeats on that shorter level. -/
theorem C2_level_reduction :
    (∀ d, calculate_merkle_root [d] = some d)
    ∧ (∀ a b rest, calculate_merkle_root (a :: b :: rest)
        = calculate_merkle_root (calculate_next_level_of_tree (a :: b :: rest)))
    ∧ (∀ L : List (List Nat), (calculate_next_level_of_tree L).length = (L.length + 1) / 2)
    ∧ (∀ (L : List (List Nat)) (j : Nat), (calculate_next_level_of_tree L).getD j []
        = if 2 * j + 1 < L.length then
            hash_internal (L.getD (2 * j) []) (L.getD (2 * j + 1) [])
          else L.getD (2 * j) [])
    ∧ (∀ x, ∃ t, MerkleTree.new [x] = .ok t ∧ t.root = hash_leaf x) := by
  refine ⟨calculate_merkle_root_single, calculate_merkle_root_cons₂,
    calculate_next_level_length, calculate_next_level_getD, ?_⟩
  intro x
  refine ⟨⟨hash_leaf x, [hash_leaf x]⟩, ?_, rfl⟩
  simp [MerkleTree.new, calculate_merkle_root_single]

/-- C3: verification folds the (sibling, side) pairs in proof order over
the running digest started at `hash_leaf leaf`, combining with the
sibling on the left for `Side.Left` and on the right for `Side.Right`,
and returns true iff the final digest equals the supplied root exactly;
it is a total boolean function (false on any mismatch, never an error),
and an empty proof verifies iff the bare leaf hash equals the root. -/
theorem C3_verify_fold (pairs : List (List Nat × Side)) (root leaf : List Nat)
    (current sibling : List Nat) :
    (MerkleProof.verify ⟨pairs⟩ root leaf = true
      ↔ pairs.foldl verify_step (hash_leaf leaf) = root)
    ∧ (MerkleProof.verify ⟨pairs⟩ root leaf = false
      ↔ pairs.foldl verify_step (hash_leaf leaf) ≠ root)
    ∧ verify_step current (sibling, Side.Left) = hash_internal sibling current
    ∧ verify_step current (sibling, Side.Right) = hash_internal current sibling
    ∧ (MerkleProof.verify ⟨[]⟩ root leaf = true ↔ hash_leaf leaf = root) := by
  refine ⟨?_, ?_, rfl, rfl, ?_⟩ <;> simp [MerkleProof.verify, verify_step]

/-- C4: every tree reachable through the public interface (a successful
construction followed by any sequence of appends) keeps its cached root
equal to the recomputation over its current leaves, and its leaf list is
never empty. -/
theorem C4_reachable_invariant (t : MerkleTree) (h : Reachable t) :
    calculate_merkle_root t.leaves = some t.root ∧ t.leaves ≠ [] := by
  obtain ⟨h1, h2⟩ := reachable_inv t h
  exact ⟨h2, h1⟩

/-- Witness for C4: the tree built from `[[0]]`. -/
theorem C4_witness :
    calculate_merkle_root (MerkleTree.mk (hash_leaf [0]) [hash_leaf [0]]).leaves
        = some (MerkleTree.mk (hash_leaf [0]) [hash_leaf [0]]).root
      ∧ (MerkleTree.mk (hash_leaf [0]) [hash_leaf [0]]).leaves ≠ [] :=
  C4_reachable_invariant _ (Reachable.base [[0]] _
    (by simp [MerkleTree.new, calculate_merkle_root_single]))

/-- C5: construction fails, with the empty-input error, exactly on the
empty input; on every non-empty input it succeeds with one leaf per
input element, the leaf at each valid index `i` being `hash_leaf` of the
`i`-th input element (order preserved, out-of-range access empty). -/
theorem C5_build_characterization (E : List (List Nat)) :
    match MerkleTree.new E with
    | .error e => E = [] ∧ e = "You can\x27t create an empty Merkle Tree"
    | .ok t => E ≠ [] ∧ t.leaves_count = E.length
        ∧ ∀ i, t.leaf_at i = E[i]?.map hash_leaf := by
  by_cases hE : E = []
  · subst hE
    simp [MerkleTree.new]
  · obtain ⟨t, hnew⟩ := new_of_ne_nil E hE
    obtain ⟨-, hleaves, -⟩ := new_ok_inv E t hnew
    rw [hnew]
    refine ⟨hE, ?_, ?_⟩
    · simp [MerkleTree.leaves_count, hleaves]
    · intro i
      simp [MerkleTree.leaf_at, hleaves, List.getElem?_map]

/-- C6: proof generation hashes the target with `hash_leaf` and returns
`none` exactly when no current leaf digest equals that hash; when some
leaf matches, the returned proof is built from the lowest matching
index, so a repeated digest is only ever proved at its first
occurrence. -/
theorem C6_prove_first_match (t : MerkleTree) (x : List Nat) :
    match t.formulate_proof_of_inclusion x with
    | none => hash_leaf x ∉ t.leaves
    | some p => ∃ i, i < t.leaves.length
        ∧ t.leaves.getD i [] = hash_leaf x
        ∧ (∀ j, j < i → t.leaves.getD j [] ≠ hash_leaf x)
        ∧ p = ⟨formulate_proof_recursive t.leaves i⟩ := by
  cases hpos : position (fun h => h = hash_leaf x) t.leaves with
  | none =>
      have hall := (position_eq_none _).mp hpos
      have hnone : t.formulate_proof_of_inclusion x = none := by
        simp [MerkleTree.formulate_proof_of_inclusion, hpos]
      rw [hnone]
      intro hmem
      have := hall _ hmem
      simp at this
  | some i =>
      obtain ⟨hi, hpi, hmin⟩ := position_eq_some _ _ hpos
      have hsome : t.formulate_proof_of_inclusion x
          = some ⟨formulate_proof_recursive t.leaves i⟩ := by
        simp [MerkleTree.formulate_proof_of_inclusion, hpos]
      rw [hsome]
      refine ⟨i, hi, by simpa using hpi, ?_, rfl⟩
      intro j hj
      have := hmin j hj
      simpa using this

/-- C8: appending an element always succeeds, increases the leaf count
by exactly one, appends `hash_leaf element` as the new last leaf while
leaving every other index's content unchanged, and replaces the root
with the recomputation over the extended leaves. -/
theorem C8_append_frame (t : MerkleTree) (x : List Nat) :
    ∃ t', t.add_leaf x = some t'
      ∧ t'.leaves_count = t.leaves_count + 1
      ∧ t'.leaves = t.leaves ++ [hash_leaf x]
      ∧ (∀ i, t'.leaf_at i
          = if i = t.leaves_count then some (hash_leaf x) else t.leaf_at i)
      ∧ calculate_merkle_root t'.leaves = some t'.root := by
  obtain ⟨t', hsome, hl, hr⟩ := add_leaf_inv t x
  refine ⟨t', hsome, ?_, hl, ?_, hr⟩
  · simp [MerkleTree.leaves_count, hl]
  · intro i
    simp only [MerkleTree.leaves_count]
    rcases Nat.lt_trichotomy i t.leaves.length with hlt | heq | hgt
    · rw [if_neg (by omega)]
      simp only [MerkleTree.leaf_at, hl]
      exact List.getElem?_append_left hlt
    · subst heq
      rw [if_pos rfl]
      simp only [MerkleTree.leaf_at, hl]
      exact List.getElem?_concat_length _ _
    · rw [if_neg (by omega)]
      have h1 : t'.leaf_at i = none := by
        simp only [MerkleTree.leaf_at, hl]
        exact List.getElem?_eq_none (by simp; omega)
      have h2 : t.leaf_at i = none := by
        simp only [MerkleTree.leaf_at]
        exact List.getElem?_eq_none (by omega)
      rw [h1, h2]

/-- C10: every reachable tree has a non-empty leaf list, so the root
recomputation never takes its empty-input panic branch on it, and
appending never panics either. -/
theorem C10_no_panic (t : MerkleTree) (h : Reachable t) :
    t.leaves ≠ []
    ∧ (calculate_merkle_root t.leaves).isSome = true
    ∧ ∀ x, (t.add_leaf x).isSome = true := by
  obtain ⟨hne, hroot⟩ := reachable_inv t h
  refine ⟨hne, by simp [hroot], ?_⟩
  intro x
  obtain ⟨t', hsome, -, -⟩ := add_leaf_inv t x
  simp [hsome]

/-- Witness for C10: the tree built from `[[1]]`. -/
theorem C10_witness :
    (MerkleTree.mk (hash_leaf [1]) [hash_leaf [1]]).leaves ≠ []
    ∧ (calculate_merkle_root (MerkleTree.mk (hash_leaf [1]) [hash_leaf [1]]).leaves).isSome = true
    ∧ ∀ x, ((MerkleTree.mk (hash_leaf [1]) [hash_leaf [1]]).add_leaf x).isSome = true :=
  C10_no_panic _ (Reachable.base [[1]] _
    (by simp [MerkleTree.new, calculate_merkle_root_single]))

/-! ## Proof length lemmas (for C7) -/

/-- A proof has at most one pair per level, so at most `⌈log₂ n⌉` pairs. -/
theorem formulate_proof_length_le :
    ∀ (L : List (List Nat)) (i : Nat),
      (formulate_proof_recursive L i).length ≤ Nat.clog 2 L.length
  | [], i => by rw [formulate_proof_recursive_short _ _ (by simp)]; simp
  | [x], i => by rw [formulate_proof_recursive_short _ _ (by simp)]; simp
  | a :: b :: rest, i => by
      rw [formulate_proof_recursive_cons₂, List.length_append]
      have hrec := formulate_proof_length_le (calculate_next_level_of_tree (a :: b :: rest)) (i / 2)
      rw [calculate_next_level_length] at hrec
      have hclog : Nat.clog 2 (a :: b :: rest).length
          = Nat.clog 2 (((a :: b :: rest).length + 1) / 2) + 1 := by
        rw [Nat.clog_of_two_le (by norm_num) (by simp),
          show (a :: b :: rest).length + 2 - 1 = (a :: b :: rest).length + 1 from by omega]
      rw [hclog]
      have hstep : (if i % 2 = 0 then
          if i + 1 < (a :: b :: rest).length then
            [((a :: b :: rest).getD (i + 1) [], Side.Right)]
          else []
        else [((a :: b :: rest).getD (i - 1) [], Side.Left)]).length ≤ 1 := by
        split
        · split <;> simp
        · simp
      omega
termination_by L => L.length
decreasing_by simp [calculate_next_level_length]; omega

/-- On a level with at least two digests the walk records at least one
pair: the level of size two just below the root always pairs. -/
theorem formulate_proof_length_pos :
    ∀ (L : List (List Nat)) (i : Nat), 2 ≤ L.length → i < L.length →
      1 ≤ (formulate_proof_recursive L i).length
  | [], i, h, _ => by simp at h
  | [x], i, h, _ => by simp at h
  | a :: b :: rest, i, _, hi => by
      rw [formulate_proof_recursive_cons₂, List.length_append]
      simp only [List.length_cons] at hi
      by_cases hpar : i % 2 = 0
      · by_cases hnext : i + 1 < (a :: b :: rest).length
        · rw [if_pos hpar, if_pos hnext]
          simp
        · rw [if_pos hpar, if_neg hnext]
          simp only [List.length_cons] at hnext
          have hrec := formulate_proof_length_pos
            (calculate_next_level_of_tree (a :: b :: rest)) (i / 2)
            (by rw [calculate_next_level_length]; simp only [List.length_cons]; omega)
            (by rw [calculate_next_level_length]; simp only [List.length_cons]; omega)
          simpa using hrec
      · rw [if_neg hpar]
        simp
termination_by L => L.length
decreasing_by simp [calculate_next_level_length]; omega

/-- On a power-of-two level every walked node has a sibling at every
level, so the proof has exactly `k` pairs for `2 ^ k` digests. -/
theorem formulate_proof_length_pow :
    ∀ (k : Nat) (L : List (List Nat)) (i : Nat), L.length = 2 ^ k → i < L.length →
      (formulate_proof_recursive L i).length = k
  | 0, L, i, hlen, _ => by
      rw [formulate_proof_recursive_short _ _ (by simp [hlen])]
      rfl
  | k + 1, [], i, hlen, _ => by
      have hpos : 0 < 2 ^ (k + 1) := pow_pos (by norm_num) _
      simp at hlen
      omega
  | k + 1, [x], i, hlen, _ => by
      have hpos : 1 ≤ 2 ^ k := Nat.one_le_two_pow
      rw [pow_succ] at hlen
      simp at hlen
      omega
  | k + 1, a :: b :: rest, i, hlen, hi => by
      rw [formulate_proof_recursive_cons₂, List.length_append]
      have hpow : (2 : Nat) ^ (k + 1) = 2 * 2 ^ k := by rw [pow_succ]; ring
      have hpos : 1 ≤ 2 ^ k := Nat.one_le_two_pow
      have heven : (a :: b :: rest).length % 2 = 0 := by rw [hlen, hpow]; omega
      have hstep : (if i % 2 = 0 then
          if i + 1 < (a :: b :: rest).length then
            [((a :: b :: rest).getD (i + 1) [], Side.Right)]
          else []
        else [((a :: b :: rest).getD (i - 1) [], Side.Left)]).length = 1 := by
        by_cases hpar : i % 2 = 0
        · rw [if_pos hpar, if_pos (by omega)]
          rfl
        · rw [if_neg hpar]
          rfl
      rw [hlen, hpow] at hi
      have hrec := formulate_proof_length_pow k
        (calculate_next_level_of_tree (a :: b :: rest)) (i / 2)
        (by rw [calculate_next_level_length, hlen, hpow]; omega)
        (by rw [calculate_next_level_length, hlen, hpow]; omega)
      rw [hstep, hrec]
      omega
termination_by _ L => L.length
decreasing_by simp [calculate_next_level_length]; omega

/-- C7 (amended): for every generated proof, the number of (sibling,
side) pairs is at most `⌈log₂ leaf_count⌉`, with equality whenever the
leaf count is a power of two; it is zero for a single-leaf tree and at
least one for every tree with two or more leaves, so a zero-length
proof occurs only for a single-leaf tree. -/
theorem C7_proof_length (t : MerkleTree) (x : List Nat) (p : MerkleProof)
    (h : t.formulate_proof_of_inclusion x = some p) :
    p.pairs.length ≤ Nat.clog 2 t.leaves_count
    ∧ (t.leaves_count = 1 → p.pairs.length = 0)
    ∧ (2 ≤ t.leaves_count → 1 ≤ p.pairs.length)
    ∧ ∀ k, t.leaves_count = 2 ^ k → p.pairs.length = k := by
  cases hpos : position (fun h => h = hash_leaf x) t.leaves with
  | none => simp [MerkleTree.formulate_proof_of_inclusion, hpos] at h
  | some i =>
      obtain ⟨hi, -, -⟩ := position_eq_some _ _ hpos
      have hp : p = ⟨formulate_proof_recursive t.leaves i⟩ := by
        simp [MerkleTree.formulate_proof_of_inclusion, hpos] at h
        exact h.symm
      subst hp
      simp only [MerkleTree.leaves_count]
      refine ⟨formulate_proof_length_le t.leaves i, ?_, ?_, ?_⟩
      · intro h1
        rw [formulate_proof_recursive_short _ _ (by omega)]
        rfl
      · intro h2
        exact formulate_proof_length_pos t.leaves i h2 hi
      · intro k hk
        exact formulate_proof_length_pow k t.leaves i hk hi

/-- Witness for C7 (amended) at the single-leaf tree over `[[0]]`. -/
theorem C7_witness :
    (MerkleTree.mk (hash_leaf [0]) [hash_leaf [0]]).formulate_proof_of_inclusion [0]
        = some (MerkleProof.mk [])
    ∧ ((MerkleProof.mk []).pairs.length
          ≤ Nat.clog 2 (MerkleTree.mk (hash_leaf [0]) [hash_leaf [0]]).leaves_count
        ∧ ((MerkleTree.mk (hash_leaf [0]) [hash_leaf [0]]).leaves_count = 1
            → (MerkleProof.mk []).pairs.length = 0)
        ∧ (2 ≤ (MerkleTree.mk (hash_leaf [0]) [hash_leaf [0]]).leaves_count
            → 1 ≤ (MerkleProof.mk []).pairs.length)
        ∧ ∀ k, (MerkleTree.mk (hash_leaf [0]) [hash_leaf [0]]).leaves_count = 2 ^ k
            → (MerkleProof.mk []).pairs.length = k) :=
  ⟨by simp [MerkleTree.formulate_proof_of_inclusion, position,
      formulate_proof_recursive_short],
   C7_proof_length _ [0] _ (by simp [MerkleTree.formulate_proof_of_inclusion, position,
      formulate_proof_recursive_short])⟩

/-- C7 counterexample: in the three-leaf tree over `[[0], [1], [2]]` the
proof generated for the third element has exactly one pair, while
`⌈log₂ 3⌉ = 2`, so the proof length is not always `⌈log₂ leaf_count⌉`. -/
theorem C7_counterexample :
    ∃ t p, MerkleTree.new [[0], [1], [2]] = .ok t
      ∧ t.formulate_proof_of_inclusion [2] = some p
      ∧ t.leaves_count = 3
      ∧ p.pairs.length = 1
      ∧ Nat.clog 2 3 = 2 := by
  obtain ⟨t, hnew⟩ := new_of_ne_nil [[0], [1], [2]] (by simp)
  obtain ⟨-, hleaves, -⟩ := new_ok_inv _ _ hnew
  simp only [List.map_cons, List.map_nil] at hleaves
  have hne02 : hash_leaf [0] ≠ hash_leaf [2] := by decide
  have hne12 : hash_leaf [1] ≠ hash_leaf [2] := by decide
  have hpos : position (fun h => h = hash_leaf [2])
      [hash_leaf [0], hash_leaf [1], hash_leaf [2]] = some 2 := by
    simp [position, hne02, hne12]
  have hproof : formulate_proof_recursive [hash_leaf [0], hash_leaf [1], hash_leaf [2]] 2
      = [(hash_internal (hash_leaf [0]) (hash_leaf [1]), Side.Left)] := by
    rw [formulate_proof_recursive_cons₂]
    simp only [List.length_cons, List.length_nil]
    rw [if_pos (by norm_num), if_neg (by norm_num)]
    rw [show calculate_next_level_of_tree [hash_leaf [0], hash_leaf [1], hash_leaf [2]]
        = [hash_internal (hash_leaf [0]) (hash_leaf [1]), hash_leaf [2]] from rfl]
    rw [show (2 : Nat) / 2 = 1 from rfl, formulate_proof_recursive_cons₂]
    rw [if_neg (by norm_num)]
    rw [show calculate_next_level_of_tree [hash_internal (hash_leaf [0]) (hash_leaf [1]), hash_leaf [2]]
        = [hash_internal (hash_internal (hash_leaf [0]) (hash_leaf [1])) (hash_leaf [2])] from rfl]
    rw [formulate_proof_recursive_short _ _ (by simp)]
    simp [List.getD]
  have hfp : t.formulate_proof_of_inclusion [2]
      = some ⟨[(hash_internal (hash_leaf [0]) (hash_leaf [1]), Side.Left)]⟩ := by
    simp only [MerkleTree.formulate_proof_of_inclusion, hleaves, hpos, Option.map_some']
    rw [hproof]
  refine ⟨t, _, hnew, hfp, ?_, rfl, ?_⟩
  · simp [MerkleTree.leaves_count, hleaves]
  · rw [Nat.clog_of_two_le (by norm_num) (by norm_num),
      show (3 + 2 - 1) / 2 = 2 from by norm_num,
      Nat.clog_of_two_le (by norm_num) (by norm_num),
      show (2 + 2 - 1) / 2 = 1 from by norm_num,
      Nat.clog_one_right]

/-! ## Concrete byte strings of the documented scenario (for C9) -/

/-- UTF-8 bytes of `"hola"`. -/
def holaBytes : List Nat := [104, 111, 108, 97]

/-- UTF-8 bytes of `"mundo"`. -/
def mundoBytes : List Nat := [109, 117, 110, 100, 111]

/-- UTF-8 bytes of `"lambda"`. -/
def lambdaBytes : List Nat := [108, 97, 109, 98, 100, 97]

/-- UTF-8 bytes of `"class"`. -/
def classBytes : List Nat := [99, 108, 97, 115, 115]

/-- The root of a two-digest level is the internal hash of the pair. -/
theorem two_leaf_root (a b : List Nat) :
    calculate_merkle_root [a, b] = some (hash_internal a b) := by
  rw [calculate_merkle_root_cons₂,
    show calculate_next_level_of_tree [a, b] = [hash_internal a b] from rfl,
    calculate_merkle_root_single]

/-- C9 (amended): on the documented inputs the code produces the
domain-separated digests its own tests assert: the first leaf of
`build(["hola","mundo","lambda","class"])` hex-encodes to
`8647f10a…eac2f04` (SHA-256 of `0x00 ‖ "hola"`), and the root of
`build(["hola","mundo"])` hex-encodes to `25f2fee2…fac6a60`. -/
theorem C9_hex_values :
    ∃ t₄ t₂, MerkleTree.new [holaBytes, mundoBytes, lambdaBytes, classBytes] = .ok t₄
      ∧ MerkleTree.new [holaBytes, mundoBytes] = .ok t₂
      ∧ t₄.leaf_at 0 = some (hash_leaf holaBytes)
      ∧ bytesHex (hash_leaf holaBytes)
          = "8647f10af4f6c1bf806c0b8396af4dd3f737f9ff24d099bdcabc1e0edeac2f04"
      ∧ t₂.root_hex = "25f2fee2bfa67b0f9c51fd31f9c365f3528a20c8bf198e352a59ffdc5fac6a60" := by
  obtain ⟨t₄, hnew₄⟩ := new_of_ne_nil [holaBytes, mundoBytes, lambdaBytes, classBytes] (by simp)
  obtain ⟨-, hleaves₄, -⟩ := new_ok_inv _ _ hnew₄
  obtain ⟨t₂, hnew₂⟩ := new_of_ne_nil [holaBytes, mundoBytes] (by simp)
  obtain ⟨-, hleaves₂, hroot₂⟩ := new_ok_inv _ _ hnew₂
  simp only [List.map_cons, List.map_nil] at hleaves₄ hleaves₂
  rw [hleaves₂, two_leaf_root] at hroot₂
  have hr₂ : t₂.root = hash_internal (hash_leaf holaBytes) (hash_leaf mundoBytes) :=
    (Option.some_inj.mp hroot₂).symm
  refine ⟨t₄, t₂, hnew₄, hnew₂, ?_, ?_, ?_⟩
  · simp [MerkleTree.leaf_at, hleaves₄]
  · decide
  · rw [MerkleTree.root_hex, hr₂]
    decide

/-- C9 counterexample: the claimed plain-SHA-256 hex values do not match
the code, which domain-separates its hashes: the first leaf of
`build(["hola","mundo","lambda","class"])` does not hex-encode to
`b221d9…4ddb79`, and the root of `build(["hola","mundo"])` does not
hex-encode to `960429…b2047e`. -/
theorem C9_counterexample :
    ∃ t₄ t₂, MerkleTree.new [holaBytes, mundoBytes, lambdaBytes, classBytes] = .ok t₄
      ∧ MerkleTree.new [holaBytes, mundoBytes] = .ok t₂
      ∧ t₄.leaf_at 0 = some (hash_leaf holaBytes)
      ∧ bytesHex (hash_leaf holaBytes)
          ≠ "b221d9dbb083a7f33428d7c2a3c3198ae925614d70210e28716ccaa7cd4ddb79"
      ∧ t₂.root_hex ≠ "960429d8385f438788551f832e4eecf94a2006393b17c6c08a9fe678acb2047e" := by
  obtain ⟨t₄, hnew₄⟩ := new_of_ne_nil [holaBytes, mundoBytes, lambdaBytes, classBytes] (by simp)
  obtain ⟨-, hleaves₄, -⟩ := new_ok_inv _ _ hnew₄
  obtain ⟨t₂, hnew₂⟩ := new_of_ne_nil [holaBytes, mundoBytes] (by simp)
  obtain ⟨-, hleaves₂, hroot₂⟩ := new_ok_inv _ _ hnew₂
  simp only [List.map_cons, List.map_nil] at hleaves₄ hleaves₂
  rw [hleaves₂, two_leaf_root] at hroot₂
  have hr₂ : t₂.root = hash_internal (hash_leaf holaBytes) (hash_leaf mundoBytes) :=
    (Option.some_inj.mp hroot₂).symm
  refine ⟨t₄, t₂, hnew₄, hnew₂, ?_, ?_, ?_⟩
  · simp [MerkleTree.leaf_at, hleaves₄]
  · decide
  · rw [MerkleTree.root_hex, hr₂]
    decide
